import Mathlib

/-!
Shallow embedding of `src/mydict.py` (MyDictionary: a FastAPI + SQLite
personal dictionary).  The ORM model `Term`, the store, and every exposed
operation (`add_term`, `get_terms`, `get_term`, `show_terms_page`) are
translated into pure Lean functions; the persistent store is a `List Term`,
HTTP errors are `(status, detail)` pairs in an `Except`.
-/

/-- ORM model `Term` (table `terms`, src/mydict.py:35-41): autoincrement
integer `id`, unique `word`, optional kana `reading`, required
`description`, optional `image_url`. -/
structure Term where
  id : Nat
  word : String
  reading : Option String
  description : String
  image_url : Option String
  deriving DecidableEq, Repr

/-- Request schema `TermCreate` (src/mydict.py:54-58). -/
structure TermCreate where
  word : String
  reading : Option String
  description : String
  image_url : Option String
  deriving DecidableEq, Repr

/-- Response schema `TermOut` (src/mydict.py:60-65): includes `id`. -/
structure TermOut where
  id : Nat
  word : String
  reading : Option String
  description : String
  image_url : Option String
  deriving DecidableEq, Repr

/-- The four-field dict appended to a bucket by `get_terms`
(src/mydict.py:150-155).  It has exactly the fields `word`, `reading`,
`description`, `image_url`; the `id` column is omitted there. -/
structure TermEntry where
  word : String
  reading : Option String
  description : String
  image_url : Option String
  deriving DecidableEq, Repr

/-- Python membership test `c in s` of one character in a string, as used by
the gojūon row tests in `get_terms`. -/
def strContains (s : String) (c : Char) : Bool :=
  s.toList.contains c

/-- The chain of row tests on `first_char` in `get_terms`
(src/mydict.py:127-149). -/
def groupOfChar (first_char : Char) : String :=
  if strContains "あいうえお" first_char then "あ行"
  else if strContains "かきくけこがぎぐげご" first_char then "か行"
  else if strContains "さしすせそざじずぜぞ" first_char then "さ行"
  else if strContains "たちつてとだぢづでど" first_char then "た行"
  else if strContains "なにぬねの" first_char then "な行"
  else if strContains "はひふへほばびぶべぼぱぴぷぺぽ" first_char then "は行"
  else if strContains "まみむめも" first_char then "ま行"
  else if strContains "やゆよ" first_char then "や行"
  else if strContains "らりるれろ" first_char then "ら行"
  else if strContains "わをん" first_char then "わ行"
  else "その他"

/-- Bucket choice for one stored reading (src/mydict.py:124-149).  Python's
`if not term.reading` is true for both `None` and the empty string, so both
go to the catch-all; otherwise `reading[0]` is classified. -/
def groupOf : Option String → String
  | none => "その他"
  | some r =>
    match r.data with
    | [] => "その他"
    | first_char :: _ => groupOfChar first_char

/-- Projection of a stored row to the four-field bucket entry
(src/mydict.py:150-155). -/
def entryOf (t : Term) : TermEntry :=
  { word := t.word, reading := t.reading, description := t.description,
    image_url := t.image_url }

/-- One loop iteration of `get_terms`: append the entry for `term` to the
bucket `groupOf term.reading` of the `defaultdict(list)`, modelled as a
total map from bucket name to entry list. -/
def groupedStep (m : String → List TermEntry) (term : Term) :
    String → List TermEntry :=
  fun g => if g = groupOf term.reading then m g ++ [entryOf term] else m g

/-- The `defaultdict(list)` built by the loop in `get_terms`
(src/mydict.py:122-155). -/
def groupedOf (terms : List Term) : String → List TermEntry :=
  terms.foldl groupedStep (fun _ => [])

/-- The canonical bucket order (src/mydict.py:157). -/
def order : List String :=
  ["あ行", "か行", "さ行", "た行", "な行", "は行", "ま行", "や行", "ら行",
   "わ行", "その他"]

/-- Endpoint `GET /terms` (`get_terms`, src/mydict.py:113-162): the grouped mapping,
as an insertion-ordered association list.  A key is present in the
defaultdict iff the loop appended at least one entry to it, so the Python
test `g in grouped` is nonemptiness of the bucket. -/
def get_terms (terms : List Term) : List (String × List TermEntry) :=
  (order.filter (fun g => !(groupedOf terms g).isEmpty)).map
    (fun g => (g, groupedOf terms g))

/-- The row order produced by `order_by(Term.word)` in `show_terms_page`:
ascending on `word` (SQLite BINARY collation on UTF-8 is codepoint order,
which is Lean's `String` order). -/
def wordLe (a b : Term) : Prop := a.word ≤ b.word

instance : DecidableRel wordLe := fun a b =>
  inferInstanceAs (Decidable (a.word ≤ b.word))

instance : IsTotal Term wordLe := ⟨fun a b => le_total a.word b.word⟩

instance : IsTrans Term wordLe := ⟨fun _ _ _ h h' => le_trans h h'⟩

/-- Endpoint `GET /web` (`show_terms_page`, src/mydict.py:184-192): the stored terms
in ascending `word` order, modelled as a stable insertion sort. -/
def show_terms_page (terms : List Term) : List Term :=
  List.insertionSort wordLe terms

/-- SQLite autoincrement primary key: one more than the largest id in use. -/
def nextId (store : List Term) : Nat :=
  store.foldl (fun m t => max m t.id) 0 + 1

/-- Endpoint `POST /add_term` (`add_term`, src/mydict.py:87-111): duplicate check on
`word`, then insert and return the new id.  The error is the
`HTTPException(400, ...)` of the duplicate branch. -/
def add_term (store : List Term) (item : TermCreate) :
    Except (Nat × String) (List Term × Nat) :=
  if store.any (fun t => t.word == item.word) then
    .error (400, "その用語は既に存在します。")
  else
    let term : Term :=
      { id := nextId store, word := item.word, reading := item.reading,
        description := item.description, image_url := item.image_url }
    .ok (store ++ [term], term.id)

/-- The store after a `POST /add_term` call: unchanged when the call raised,
the inserted store when it succeeded. -/
def add_term_state (store : List Term) (item : TermCreate) : List Term :=
  match add_term store item with
  | .error _ => store
  | .ok (s, _) => s

/-- Endpoint `GET /term/id` (`get_term`, src/mydict.py:164-179): by-id lookup,
`HTTPException(404, "Term not found")` when absent. -/
def get_term (store : List Term) (term_id : Nat) :
    Except (Nat × String) TermOut :=
  match store.find? (fun t => t.id == term_id) with
  | none => .error (404, "Term not found")
  | some t =>
    .ok { id := t.id, word := t.word, reading := t.reading,
          description := t.description, image_url := t.image_url }

/-- The store invariant: at most one `Term` per `word` value (the UNIQUE
constraint on the `word` column, src/mydict.py:38). -/
def uniqueWords (store : List Term) : Prop :=
  (store.map Term.word).Nodup

/-- The whitespace characters stripped by Python's `str.strip()`. -/
def pyWhitespace : List Char :=
  ['\t', '\n', '\x0b', '\x0c', '\r', '\x1c', '\x1d', '\x1e', '\x1f', ' ',
   '\x85', '\xa0', ' ', ' ', ' ', ' ', ' ',
   ' ', ' ', ' ', ' ', ' ', ' ', ' ',
   ' ', ' ', ' ', ' ', '　']

/-- Is `c` one of Python's `str.strip()` whitespace characters? -/
def pyIsSpace (c : Char) : Bool :=
  pyWhitespace.contains c

/-- Python's `str.strip()`: drop whitespace from both ends. -/
def pyStrip (s : String) : String :=
  ⟨((s.toList.dropWhile pyIsSpace).reverse.dropWhile pyIsSpace).reverse⟩

/-- The effective sort key named by the spec: the trimmed `reading` when
that is non-empty, otherwise `word`.  This formalises the claims about the
sort key; the code itself orders `/web` by `word` alone. -/
def derived_key (t : Term) : String :=
  match t.reading with
  | none => t.word
  | some r => if pyStrip r = "" then t.word else pyStrip r

/-- ASCII lower-casing of a string, as a character list. -/
def lowerL (s : String) : List Char :=
  s.data.map Char.toLower

/-- Does `hay` start with `needle`, character by character? -/
def startsWithB : List Char → List Char → Bool
  | [], _ => true
  | _ :: _, [] => false
  | a :: as, b :: bs => a == b && startsWithB as bs

/-- Python's substring test `needle in hay`. -/
def hasSub (needle : List Char) : List Char → Bool
  | [] => startsWithB needle []
  | c :: rest => startsWithB needle (c :: rest) || hasSub needle rest

/-- Modelled from the spec: the keyword filter of the listing operation.
The filtering iteration of this repository is not under src/ (the
src/mydict.py iteration of GET /terms takes no keyword), so this follows
spec section 4.1: retain a Term if the keyword is a case-insensitive
substring of word, reading (absent treated as empty) or description.
Case folding is ASCII `toLower`. -/
def matchesKeyword (kw : String) (t : Term) : Bool :=
  let k := lowerL kw
  hasSub k (lowerL t.word) ||
    hasSub k (lowerL (t.reading.getD "")) ||
    hasSub k (lowerL t.description)

/-- Modelled from the spec: the retained Terms for a search keyword, in
store order (spec section 4.1, Filtering). -/
def filterTerms (kw : String) (ts : List Term) : List Term :=
  ts.filter (matchesKeyword kw)

/-- Modelled from the spec: the filtered grouped listing of GET /terms —
the keyword filter runs first, grouping runs on the retained Terms. -/
def get_terms_q (kw : String) (ts : List Term) :
    List (String × List TermEntry) :=
  get_terms (filterTerms kw ts)

/-- The substring relation the claims speak about: `n` occurs contiguously
inside `h`. -/
def SubStr (n h : List Char) : Prop :=
  ∃ l r, h = l ++ n ++ r

/-- Concrete sample row: 犬 with reading いぬ. -/
def tInu : Term :=
  { id := 1, word := "犬", reading := some "いぬ", description := "animal",
    image_url := none }

/-- Concrete sample row: 朝 with reading あさ. -/
def tAsa : Term :=
  { id := 2, word := "朝", reading := some "あさ", description := "morning",
    image_url := none }

/-- Concrete sample row: word a, reading z. -/
def tA : Term :=
  { id := 3, word := "a", reading := some "z", description := "d",
    image_url := none }

/-- Concrete sample row: word b, reading a. -/
def tB : Term :=
  { id := 4, word := "b", reading := some "a", description := "d",
    image_url := none }

/-- Concrete sample row: word p, reading ん. -/
def tP : Term :=
  { id := 5, word := "p", reading := some "ん", description := "d",
    image_url := none }

/-- Concrete sample row: word q, reading あ. -/
def tQ : Term :=
  { id := 6, word := "q", reading := some "あ", description := "d",
    image_url := none }

/-- Concrete create request duplicating the word of `tInu`. -/
def itemInu : TermCreate :=
  { word := "犬", reading := some "いぬ", description := "animal",
    image_url := none }

/-! ### Helper lemmas -/

theorem foldl_groupedStep (ts : List Term) (m : String → List TermEntry)
    (g : String) :
    ts.foldl groupedStep m g =
      m g ++ (ts.filter (fun t => groupOf t.reading == g)).map entryOf := by
  induction ts generalizing m with
  | nil => simp
  | cons t ts ih =>
    rw [List.foldl_cons, ih, List.filter_cons]
    by_cases h : groupOf t.reading = g
    · simp only [groupedStep]
      rw [if_pos h.symm, if_pos (beq_iff_eq.mpr h)]
      simp
    · simp only [groupedStep]
      rw [if_neg (fun hg => h hg.symm), if_neg (by simpa using h)]

theorem groupedOf_eq (ts : List Term) (g : String) :
    groupedOf ts g =
      (ts.filter (fun t => groupOf t.reading == g)).map entryOf := by
  simpa [groupedOf] using foldl_groupedStep ts (fun _ => []) g

theorem filter_word_orderedInsert (k : String) (t : Term) (l : List Term) :
    (List.orderedInsert wordLe t l).filter (fun u => u.word == k) =
      if t.word == k then t :: l.filter (fun u => u.word == k)
      else l.filter (fun u => u.word == k) := by
  induction l with
  | nil => simp [List.orderedInsert, List.filter_cons]
  | cons u l ih =>
    by_cases hle : wordLe t u
    · rw [List.orderedInsert_of_le _ _ hle]
      by_cases hk : t.word = k <;> simp [List.filter_cons, hk]
    · have hins : List.orderedInsert wordLe t (u :: l) =
          u :: List.orderedInsert wordLe t l := by
        simp [List.orderedInsert, hle]
      rw [hins, List.filter_cons, ih]
      by_cases hk : t.word = k
      · have hu : ¬ u.word = k := by
          intro hu
          exact hle (le_of_eq (by rw [hk, hu]) : t.word ≤ u.word)
        simp [hk, hu, List.filter_cons]
      · by_cases hu : u.word = k <;> simp [hk, hu, List.filter_cons]

theorem filter_word_insertionSort (k : String) (ts : List Term) :
    (List.insertionSort wordLe ts).filter (fun u => u.word == k) =
      ts.filter (fun u => u.word == k) := by
  induction ts with
  | nil => rfl
  | cons t ts ih =>
    rw [List.insertionSort, filter_word_orderedInsert, List.filter_cons]
    by_cases hk : t.word = k <;> simp [hk, ih]

theorem startsWithB_iff :
    ∀ n h : List Char, startsWithB n h = true ↔ ∃ r, h = n ++ r
  | [], h => by simp [startsWithB]
  | _ :: _, [] => by simp [startsWithB]
  | a :: as, b :: bs => by
    simp only [startsWithB, Bool.and_eq_true, beq_iff_eq,
      startsWithB_iff as bs, List.cons_append, List.cons.injEq]
    constructor
    · rintro ⟨rfl, r, rfl⟩
      exact ⟨r, rfl, rfl⟩
    · rintro ⟨r, rfl, rfl⟩
      exact ⟨rfl, r, rfl⟩

theorem hasSub_iff :
    ∀ n h : List Char, hasSub n h = true ↔ ∃ l r, h = l ++ n ++ r
  | n, [] => by
    simp only [hasSub, startsWithB_iff]
    constructor
    · rintro ⟨r, hr⟩
      exact ⟨[], r, by simpa using hr⟩
    · rintro ⟨l, r, hr⟩
      rcases List.append_eq_nil.mp (List.append_eq_nil.mp hr.symm).1 with ⟨h1, h2⟩
      exact ⟨[], by simp [h1, h2]⟩
  | n, c :: cs => by
    simp only [hasSub, Bool.or_eq_true, startsWithB_iff, hasSub_iff n cs]
    constructor
    · rintro (⟨r, hr⟩ | ⟨l, r, hr⟩)
      · exact ⟨[], r, by simpa using hr⟩
      · exact ⟨c :: l, r, by simp [hr]⟩
    · rintro ⟨l, r, hr⟩
      cases l with
      | nil => exact Or.inl ⟨r, by simpa using hr⟩
      | cons x xs =>
        rcases List.cons.injEq .. ▸ hr with ⟨rfl, hr2⟩
        exact Or.inr ⟨xs, r, hr2⟩

theorem matchesKeyword_iff (kw : String) (t : Term) :
    matchesKeyword kw t = true ↔
      (SubStr (lowerL kw) (lowerL t.word) ∨
        SubStr (lowerL kw) (lowerL (t.reading.getD "")) ∨
        SubStr (lowerL kw) (lowerL t.description)) := by
  simp [matchesKeyword, SubStr, hasSub_iff, or_assoc]

theorem ws_groupOfChar (c : Char) (h : pyIsSpace c = true) :
    groupOfChar c = "その他" := by
  have hc : c ∈ pyWhitespace := List.elem_iff.mp h
  simp only [pyWhitespace] at hc
  fin_cases hc <;> rfl

theorem pyStrip_head_space (s : String) (c : Char) (cs : List Char)
    (hs : s.toList = c :: cs) (h : pyStrip s = "") : pyIsSpace c = true := by
  by_cases hc : pyIsSpace c = true
  · exact hc
  · exfalso
    have hdata :
        ((s.toList.dropWhile pyIsSpace).reverse.dropWhile pyIsSpace).reverse
          = [] := by
      simpa [pyStrip] using congrArg String.data h
    rw [hs, List.dropWhile_cons] at hdata
    rw [if_neg hc] at hdata
    have hnil : ((c :: cs).reverse.dropWhile pyIsSpace) = [] :=
      List.reverse_eq_nil_iff.mp hdata
    have := (List.dropWhile_eq_nil_iff.mp hnil) c (by simp)
    exact hc this

theorem groupOf_strip_empty (r : String) (h : pyStrip r = "") :
    groupOf (some r) = "その他" := by
  cases hs : r.data with
  | nil => simp [groupOf, hs]
  | cons c cs =>
    have hw := ws_groupOfChar c (pyStrip_head_space r c cs hs h)
    simp [groupOf, hs, hw]

theorem groupOfChar_mem (c : Char) : groupOfChar c ∈ order := by
  unfold groupOfChar
  split_ifs <;> simp [order]

theorem groupOf_mem_order (reading : Option String) :
    groupOf reading ∈ order := by
  cases reading with
  | none => simp [groupOf, order]
  | some r =>
    cases hs : r.data with
    | nil => simp [groupOf, hs, order]
    | cons c cs =>
      have hg : groupOf (some r) = groupOfChar c := by simp [groupOf, hs]
      rw [hg]
      exact groupOfChar_mem c

/-! ### Claim theorems -/

/-- C1 as stated fails on the code: `show_terms_page` orders the listing by
`word` alone, so with words a, b carrying readings z, a the listing is
a, b while the effective sort keys are z, a — not ascending. -/
theorem c1_counterexample :
    ¬ List.Sorted (fun a b : Term => derived_key a ≤ derived_key b)
      (show_terms_page [tA, tB]) := by
  intro h
  have hab : wordLe tA tB := by
    show tA.word ≤ tB.word
    rw [String.le_iff_toList_le]
    decide
  have hs : show_terms_page [tA, tB] = [tA, tB] := by
    have h0 : show_terms_page [tA, tB] = List.orderedInsert wordLe tA [tB] := rfl
    rw [h0, List.orderedInsert_of_le _ _ hab]
  rw [hs] at h
  have hk : derived_key tA ≤ derived_key tB :=
    List.rel_of_sorted_cons h tB (List.mem_cons_self _ _)
  have h1 : derived_key tA = "z" := by decide
  have h2 : derived_key tB = "a" := by decide
  rw [h1, h2, String.le_iff_toList_le] at hk
  exact absurd hk (by decide)

/-- C1 (amended): the flat listing of GET /web is sorted ascending on the
Term's word, not on the reading-else-word derived key. -/
theorem c1_web_sorted_by_word (terms : List Term) :
    List.Sorted wordLe (show_terms_page terms) :=
  List.sorted_insertionSort wordLe terms

/-- C2: GET /terms classifies every Term into exactly one of the eleven
named buckets from the first character of its reading, and a Term whose
reading is absent, or empty after trimming whitespace, is classified into
the catch-all その他 bucket regardless of its word. -/
theorem c2_grouping_buckets (reading : Option String) :
    groupOf reading ∈ order ∧
      (reading = none → groupOf reading = "その他") ∧
      (∀ r, reading = some r → pyStrip r = "" → groupOf reading = "その他") := by
  refine ⟨groupOf_mem_order reading, ?_, ?_⟩
  · rintro rfl
    rfl
  · rintro r rfl h
    exact groupOf_strip_empty r h

/-- Witness for C2 at the whitespace-only reading U+3000. -/
theorem c2_grouping_buckets_witness :
    groupOf (some "　") = "その他" :=
  (c2_grouping_buckets (some "　")).2.2 "　" rfl (by decide)

/-- C3: the grouped mapping of GET /terms contains only non-empty buckets,
and the bucket names appear as a subsequence of the fixed canonical order
あ行 … わ行 with その他 last. -/
theorem c3_nonempty_canonical (terms : List Term) :
    (∀ p ∈ get_terms terms, p.2 ≠ []) ∧
      List.Sublist ((get_terms terms).map Prod.fst) order := by
  constructor
  · intro p hp
    rcases List.mem_map.mp hp with ⟨g, hg, rfl⟩
    have h2 := (List.mem_filter.mp hg).2
    simpa [List.isEmpty_iff] using h2
  · have hmap : (get_terms terms).map Prod.fst =
        order.filter (fun g => !(groupedOf terms g).isEmpty) := by
      simp only [get_terms, List.map_map]
      have hcomp : (Prod.fst ∘ fun g => (g, groupedOf terms g)) = id := rfl
      rw [hcomp, List.map_id]
    rw [hmap]
    exact List.filter_sublist _

/-- Witness for C3 on the one-row store containing `tAsa`. -/
theorem c3_nonempty_canonical_witness :
    (("あ行", [entryOf tAsa]) : String × List TermEntry).2 ≠ [] :=
  (c3_nonempty_canonical [tAsa]).1 ("あ行", [entryOf tAsa]) (by decide)

/-- C4 (modelled from the spec; the filtering iteration is not under src/):
a Term is retained iff the keyword, case-insensitively, is a substring of
its word, its reading (absent treated as empty) or its description, and
the filtered grouped listing applies the filter before grouping. -/
theorem c4_filter_iff (kw : String) (ts : List Term) (t : Term) :
    (t ∈ filterTerms kw ts ↔
      t ∈ ts ∧ (SubStr (lowerL kw) (lowerL t.word) ∨
        SubStr (lowerL kw) (lowerL (t.reading.getD "")) ∨
        SubStr (lowerL kw) (lowerL t.description))) ∧
      get_terms_q kw ts = get_terms (filterTerms kw ts) := by
  refine ⟨?_, rfl⟩
  rw [filterTerms, List.mem_filter, matchesKeyword_iff]

/-- Witness for C4: the keyword いぬ retains `tInu`. -/
theorem c4_filter_iff_witness :
    tInu ∈ [tInu] ∧ (SubStr (lowerL "いぬ") (lowerL tInu.word) ∨
      SubStr (lowerL "いぬ") (lowerL (tInu.reading.getD "")) ∨
      SubStr (lowerL "いぬ") (lowerL tInu.description)) :=
  ((c4_filter_iff "いぬ" [tInu] tInu).1).mp (by decide)

/-- C5: adding a word that is already stored fails with the 400
duplicate-word error, performs no write, and leaves the store with exactly
one record carrying that word. -/
theorem c5_duplicate_add (store : List Term) (item : TermCreate)
    (huniq : uniqueWords store) (t0 : Term) (ht0 : t0 ∈ store)
    (hw : t0.word = item.word) :
    add_term store item = .error (400, "その用語は既に存在します。") ∧
      add_term_state store item = store ∧
      ((add_term_state store item).filter
        (fun t => t.word == item.word)).length = 1 := by
  have hany : store.any (fun t => t.word == item.word) = true :=
    List.any_eq_true.mpr ⟨t0, ht0, beq_iff_eq.mpr hw⟩
  have herr : add_term store item = .error (400, "その用語は既に存在します。") := by
    simp [add_term, hany]
  have hstate : add_term_state store item = store := by
    simp [add_term_state, herr]
  refine ⟨herr, hstate, ?_⟩
  rw [hstate]
  have hmem : item.word ∈ store.map Term.word :=
    List.mem_map.mpr ⟨t0, ht0, hw⟩
  have hcount := List.count_eq_one_of_mem huniq hmem
  calc (store.filter (fun t => t.word == item.word)).length
      = store.countP (fun t => t.word == item.word) :=
        (List.countP_eq_length_filter _ _).symm
    _ = (store.map Term.word).countP (fun w => w == item.word) :=
        (List.countP_map (fun w => w == item.word) Term.word store).symm
    _ = (store.map Term.word).count item.word := rfl
    _ = 1 := hcount

/-- Witness for C5: adding 犬 twice. -/
theorem c5_duplicate_add_witness :
    add_term [tInu] itemInu = .error (400, "その用語は既に存在します。") ∧
      add_term_state [tInu] itemInu = [tInu] ∧
      ((add_term_state [tInu] itemInu).filter
        (fun t => t.word == itemInu.word)).length = 1 :=
  c5_duplicate_add [tInu] itemInu (by simp [uniqueWords]) tInu (by decide)
    (by decide)

/-- C6: the only mutating operation, add_term, preserves the
one-Term-per-word invariant and only ever appends a fresh record: the old
store is a prefix of the post state, so no existing Term is updated or
deleted (the remaining operations read the store without modifying it). -/
theorem c6_invariant_preserved (store : List Term) (item : TermCreate)
    (h : uniqueWords store) :
    uniqueWords (add_term_state store item) ∧
      store <+: add_term_state store item := by
  by_cases hany : store.any (fun t => t.word == item.word) = true
  · have hstate : add_term_state store item = store := by
      simp [add_term_state, add_term, hany]
    rw [hstate]
    exact ⟨h, List.prefix_rfl⟩
  · have hstate : add_term_state store item =
        store ++ [{ id := nextId store, word := item.word,
                    reading := item.reading, description := item.description,
                    image_url := item.image_url }] := by
      simp [add_term_state, add_term, hany]
    rw [hstate]
    constructor
    · have hnot : item.word ∉ store.map Term.word := by
        intro hmem
        rcases List.mem_map.mp hmem with ⟨t, ht, hwt⟩
        exact hany (List.any_eq_true.mpr ⟨t, ht, beq_iff_eq.mpr hwt⟩)
      simp only [uniqueWords, List.map_append, List.map_cons, List.map_nil]
      exact List.Nodup.append h (List.nodup_singleton _)
        (by simpa [List.disjoint_singleton] using hnot)
    · exact List.prefix_append _ _

/-- Witness for C6: adding 犬 to the empty store. -/
theorem c6_invariant_preserved_witness :
    uniqueWords (add_term_state [] itemInu) ∧
      [] <+: add_term_state [] itemInu :=
  c6_invariant_preserved [] itemInu (by simp [uniqueWords])

/-- C7: looking up an id with no matching record yields exactly the
documented 404 Not-found error; `get_term` is a total function, so no other
exception can escape. -/
theorem c7_not_found (store : List Term) (term_id : Nat)
    (h : ∀ t ∈ store, t.id ≠ term_id) :
    get_term store term_id = .error (404, "Term not found") := by
  have hfind : store.find? (fun t => t.id == term_id) = none :=
    List.find?_eq_none.mpr (fun t ht => by simpa using h t ht)
  simp [get_term, hfind]

/-- Witness for C7: id 999 against the one-row store. -/
theorem c7_not_found_witness :
    get_term [tInu] 999 = .error (404, "Term not found") :=
  c7_not_found [tInu] 999 (by decide)

/-- C8: the grouping and sorting engine is total (both operations are total
Lean functions of the Term collection), and on the empty collection the
grouped listing is the empty mapping and the flat listing is empty. -/
theorem c8_empty_total :
    get_terms [] = [] ∧ show_terms_page [] = [] := by
  constructor <;> rfl

/-- C9 as stated fails on the code: re-using the word order, the listing of
words p, q with readings ん, あ keeps the store order, whose derived keys
ん, あ are not ascending, so sort is not an ascending sort on the derived
key. -/
theorem c9_counterexample :
    ¬ List.Sorted (fun a b : Term => derived_key a ≤ derived_key b)
      (show_terms_page [tP, tQ]) := by
  intro h
  have hpq : wordLe tP tQ := by
    show tP.word ≤ tQ.word
    rw [String.le_iff_toList_le]
    decide
  have hs : show_terms_page [tP, tQ] = [tP, tQ] := by
    have h0 : show_terms_page [tP, tQ] = List.orderedInsert wordLe tP [tQ] := rfl
    rw [h0, List.orderedInsert_of_le _ _ hpq]
  rw [hs] at h
  have hk : derived_key tP ≤ derived_key tQ :=
    List.rel_of_sorted_cons h tQ (List.mem_cons_self _ _)
  have h1 : derived_key tP = "ん" := by decide
  have h2 : derived_key tQ = "あ" := by decide
  rw [h1, h2, String.le_iff_toList_le] at hk
  exact absurd hk (by decide)

/-- C9 (amended): sort is a stable ascending sort on the word field (equal
words keep their store order), and re-sorting an already-sorted output is a
no-op. -/
theorem c9_sort_stable_idempotent (terms : List Term) :
    List.Sorted wordLe (show_terms_page terms) ∧
      (∀ k, (show_terms_page terms).filter (fun u => u.word == k) =
        terms.filter (fun u => u.word == k)) ∧
      show_terms_page (show_terms_page terms) = show_terms_page terms := by
  refine ⟨List.sorted_insertionSort wordLe terms, ?_, ?_⟩
  · exact fun k => filter_word_insertionSort k terms
  · exact List.Sorted.insertionSort_eq (List.sorted_insertionSort wordLe terms)

/-- C10: every entry of the grouped listing is the four-field projection
word, reading, description, image_url of a stored Term — the id column of
the Term model (which the by-id lookup does return) is omitted. -/
theorem c10_entries_project (terms : List Term) :
    ∀ p ∈ get_terms terms, ∀ e ∈ p.2, ∃ t ∈ terms,
      e = { word := t.word, reading := t.reading,
            description := t.description, image_url := t.image_url } := by
  intro p hp e he
  rcases List.mem_map.mp hp with ⟨g, _, rfl⟩
  have he' : e ∈ (terms.filter (fun t => groupOf t.reading == g)).map entryOf := by
    simpa [groupedOf_eq] using he
  rcases List.mem_map.mp he' with ⟨t, ht, rfl⟩
  exact ⟨t, List.mem_of_mem_filter ht, rfl⟩

/-- Witness for C10 on the one-row store containing `tAsa`. -/
theorem c10_entries_project_witness :
    ∃ t ∈ [tAsa],
      entryOf tAsa = ({ word := t.word, reading := t.reading,
                        description := t.description,
                        image_url := t.image_url } : TermEntry) :=
  c10_entries_project [tAsa] ("あ行", [entryOf tAsa]) (by decide)
    (entryOf tAsa) (by decide)
